import Mathlib

/-
  Verification development for the news-snippet-gen repository.

  The definitions below are a shallow embedding of the code in
  src/app/api/generate/route.ts and the retry/resolver variant in
  src/unnamed/part_001 (the two files share the text pipeline verbatim).
  JavaScript strings are modelled as Lean String / List Char at the
  code-point level; JS truthiness of a string is modelled as being
  non-empty; numeric layout arithmetic is modelled over the rationals
  with an explicit floor-based rounding function mirroring Math.round.
-/

set_option maxRecDepth 8000

namespace NewsSnippet

/-! ## JavaScript string primitives (modelled at the character-list level) -/

/-- Models JavaScript String.prototype.split with a single-character
separator: "".split(sep) is [""], separators at the ends produce empty
pieces, exactly as in JS. -/
def splitChar (sep : Char) : List Char → List (List Char)
  | [] => [[]]
  | c :: cs =>
    if c = sep then [] :: splitChar sep cs
    else
      match splitChar sep cs with
      | [] => [[c]]
      | g :: gs => (c :: g) :: gs

theorem splitChar_ne_nil (sep : Char) (xs : List Char) : splitChar sep xs ≠ [] := by
  cases xs with
  | nil => simp [splitChar]
  | cons c cs =>
    simp only [splitChar]
    split
    · simp
    · split <;> simp

/-- Every piece produced by splitChar is free of the separator. -/
theorem splitChar_not_mem (sep : Char) (xs : List Char) :
    ∀ g ∈ splitChar sep xs, sep ∉ g := by
  induction xs with
  | nil => simp [splitChar]
  | cons c cs ih =>
    intro g hg
    simp only [splitChar] at hg
    split at hg
    · rcases List.mem_cons.mp hg with h | h
      · simp [h]
      · exact ih g h
    · rename_i hcs
      rcases hsplit : splitChar sep cs with _ | ⟨g0, gs⟩
      · exact absurd hsplit (splitChar_ne_nil sep cs)
      · rw [hsplit] at hg
        rcases List.mem_cons.mp hg with h | h
        · subst h
          intro hmem
          rcases List.mem_cons.mp hmem with h' | h'
          · exact hcs h'.symm
          · exact ih g0 (hsplit ▸ List.mem_cons_self g0 gs) h'
        · exact ih g (hsplit ▸ List.mem_cons_of_mem g0 h)

/-- Models the JS ||-chain over strings: the first truthy (non-empty)
string wins, and the empty string is returned when none is truthy. -/
def firstNonEmpty : List String → String
  | [] => ""
  | s :: ss => if s = "" then firstNonEmpty ss else s

theorem firstNonEmpty_append (xs ys : List String) :
    firstNonEmpty (xs ++ ys) =
      if firstNonEmpty xs = "" then firstNonEmpty ys else firstNonEmpty xs := by
  induction xs with
  | nil => simp [firstNonEmpty]
  | cons x xs ih =>
    by_cases hx : x = "" <;> simp [firstNonEmpty, hx, ih]

/-! ## Line-Wrap Engine (route.ts lines 211-220 and 238-246)

The title and author word-wraps are the same reduce over
split(' ') seeded with one empty line; the current (last) line is
extended only when it is truthy (non-empty) and the joined length is
strictly below the per-line character budget. -/

/-- One step of the wrap reduce (the callback of the reduce at
route.ts lines 238-246); the current line is lines[lines.length - 1],
which is extended in place only when it is truthy (non-empty) and the
extension stays strictly below the budget. -/
def wrapFold (maxChars : Nat) (lines : List String) (word : String) : List String :=
  if lines.getLastD "" ≠ "" ∧ (lines.getLastD "" ++ " " ++ word).length < maxChars then
    lines.dropLast ++ [lines.getLastD "" ++ " " ++ word]
  else
    lines ++ [word]

/-- The list of whitespace(single space)-delimited words of a JS string,
as produced by s.split(' '). -/
def wordsOf (s : String) : List String :=
  (splitChar ' ' s.data).map (fun l => String.mk l)

/-- The full greedy word-wrap: cleanX.split(' ').reduce(..., ['']). -/
def wrapLines (maxChars : Nat) (s : String) : List String :=
  (wordsOf s).foldl (wrapFold maxChars) [""]

/-- The dynamic title font tier chosen from the cleaned title's length
(route.ts lines 222-235). -/
structure TitleTier where
  fontSize : ℚ
  lineHeight : ℚ
  maxChars : Nat
  deriving DecidableEq

def titleTier (cleanTitle : String) : TitleTier :=
  if cleanTitle.length > 80 then ⟨36, 44, 35⟩
  else if cleanTitle.length > 50 then ⟨42, 50, 30⟩
  else ⟨48, 58, 25⟩

/-- The wrapped title lines of a cleaned title (route.ts line 238). -/
def titleLinesOf (cleanTitle : String) : List String :=
  wrapLines (titleTier cleanTitle).maxChars cleanTitle

/-- The fixed author budget (route.ts line 211). -/
def maxAuthorCharsPerLine : Nat := 60

/-- The wrapped author lines (route.ts line 212). -/
def authorLinesOf (cleanAuthor : String) : List String :=
  wrapLines maxAuthorCharsPerLine cleanAuthor

/-! ## Text Normalizer (route.ts lines 143-208) -/

/-- Title truncation (route.ts line 205): titles longer than 150
characters are cut to 150 characters and get an ellipsis marker. -/
def cleanTitle (title : String) : String :=
  if title.length > 150 then String.mk (title.data.take 150) ++ "..." else title

/-- A parsed calendar date, the result of a successful new Date(...)
conversion (month is 1-based). -/
structure CalDate where
  year : Nat
  month : Nat
  day : Nat
  deriving DecidableEq

def monthLong : Nat → String
  | 1 => "January" | 2 => "February" | 3 => "March" | 4 => "April"
  | 5 => "May" | 6 => "June" | 7 => "July" | 8 => "August"
  | 9 => "September" | 10 => "October" | 11 => "November" | 12 => "December"
  | _ => ""

def monthShort : Nat → String
  | 1 => "Jan" | 2 => "Feb" | 3 => "Mar" | 4 => "Apr"
  | 5 => "May" | 6 => "Jun" | 7 => "Jul" | 8 => "Aug"
  | 9 => "Sep" | 10 => "Oct" | 11 => "Nov" | 12 => "Dec"
  | _ => ""

def pad2 (n : Nat) : String := if n < 10 then "0" ++ toString n else toString n

/-- toLocaleDateString('en-US', month:'long', day:'numeric',
year:'numeric'), e.g. "January 5, 2024". -/
def localeLong (d : CalDate) : String :=
  monthLong d.month ++ " " ++ toString d.day ++ ", " ++ toString d.year

/-- toLocaleDateString('en-US', month:'short', day:'2-digit',
year:'numeric'), e.g. "Jan 05, 2024". -/
def localeShortRaw (d : CalDate) : String :=
  monthShort d.month ++ " " ++ pad2 d.day ++ ", " ++ toString d.year

/-- .replace(slash-comma-slash-g, ''). -/
def stripCommas (s : String) : String := String.mk (s.data.filter (fun c => c ≠ ','))

/-- .replace(slash-space-slash-g, '-'). -/
def spacesToDashes (s : String) : String :=
  String.mk (s.data.map (fun c => if c = ' ' then '-' else c))

/-- The current-date fallback actually built by the code
(route.ts lines 152-156): short month, 2-digit day, commas removed,
spaces replaced by dashes, e.g. "Jan-05-2024". -/
def dashedShort (d : CalDate) : String := spacesToDashes (stripCommas (localeShortRaw d))

/-- The date formatter (route.ts lines 143-164).  The behaviour of the
host new Date(date) conversion is passed in as parsed : Option CalDate
(none models an Invalid Date result; toLocaleDateString of an invalid
date returns the string "Invalid Date" and does not throw). now is the
current date used by the empty-input branch. -/
def formatDate (date : String) (parsed : Option CalDate) (now : CalDate) : String :=
  if date ≠ "" then
    match parsed with
    | some d => localeLong d
    | none => "Invalid Date"
  else dashedShort now

/-! ## Layout Calculator (route.ts lines 249-274) -/

/-- Math.round for the non-negative quantities appearing here:
floor of x + 1/2. -/
def jsRound (q : ℚ) : ℤ := ⌊q + 1 / 2⌋

/-- Title block height (route.ts line 251). -/
def titleBlockHeight (titleLineCount : Nat) (fontSize lineHeight : ℚ) : ℚ :=
  ((titleLineCount : ℚ) - 1) * lineHeight + fontSize * (85 / 100)

/-- Metadata block height (route.ts lines 259-269): author lines times
18 when the author is included, plus one 18px row when the date is
included, reset to 0 when both are disabled. -/
def metadataBlockHeight (includeAuthor includeDate : Bool) (authorLinesCount : Nat) : ℚ :=
  let h0 : ℚ := 0
  let h1 : ℚ := if includeAuthor then h0 + (authorLinesCount : ℚ) * 18 else h0
  let h2 : ℚ := if includeDate then h1 + 18 else h1
  if !includeAuthor && !includeDate then 0 else h2

/-- The computed text-box height (route.ts line 273). -/
def textHeight (titleLineCount : Nat) (fontSize lineHeight : ℚ)
    (includeAuthor includeDate : Bool) (authorLinesCount : Nat) : ℤ :=
  let mbh := metadataBlockHeight includeAuthor includeDate authorLinesCount
  jsRound (20 + titleBlockHeight titleLineCount fontSize lineHeight + 12 + 2 +
    (if mbh > 0 then 15 + mbh else 0) + 20)

/-- Whether the metadata section of the SVG is emitted at all: the
template guards the whole metadata block with metadataBlockHeight > 0
(route.ts lines 319 and 378). -/
def metadataRendered (includeAuthor includeDate : Bool) (authorLinesCount : Nat) : Bool :=
  decide (0 < metadataBlockHeight includeAuthor includeDate authorLinesCount)

/-- The text-box height formula exactly as the specification states it,
for comparison with the code's computation. -/
def specMetadataBlockHeight (includeAuthor includeDate : Bool) (authorLinesCount : Nat) : ℚ :=
  (if includeAuthor then (authorLinesCount : ℚ) * 18 else 0) +
  (if includeDate then (18 : ℚ) else 0)

def specTextHeight (titleLineCount : Nat) (fontSize lineHeight : ℚ)
    (includeAuthor includeDate : Bool) (authorLinesCount : Nat) : ℤ :=
  let mbh := specMetadataBlockHeight includeAuthor includeDate authorLinesCount
  jsRound (20 + (((titleLineCount : ℚ) - 1) * lineHeight + (85 / 100) * fontSize) + 12 + 2 +
    (if mbh > 0 then 15 + mbh else 0) + 20)

/-! ## Card Renderer orientation branch (route.ts lines 277-403) -/

/-- The concrete resize/placement/panel decisions taken by the two
orientation branches.  Both branches composite the text panel at
vertical offset totalHeight - textHeight and the image at 0. -/
structure RenderPlan where
  resizeWidth : ℤ
  resizeHeight : ℤ
  fit : String
  panelFill : String
  imageTop : ℤ
  textTop : ℤ
  deriving DecidableEq

def cardWidth : ℤ := 800
def cardTotalHeight : ℤ := 1000

/-- The orientation branch (route.ts lines 277-403): missing intrinsic
dimensions default to 0 via the ||-0 guards at line 278. -/
def renderPlan (imgW imgH : Option Nat) (textH : ℤ) : RenderPlan :=
  let isHorizontal := imgW.getD 0 > imgH.getD 0
  if isHorizontal then
    { resizeWidth := cardWidth, resizeHeight := cardTotalHeight - textH,
      fit := "cover", panelFill := "#FFFFFF",
      imageTop := 0, textTop := cardTotalHeight - textH }
  else
    { resizeWidth := cardWidth, resizeHeight := cardTotalHeight,
      fit := "cover", panelFill := "rgba(255, 255, 255, 0.85)",
      imageTop := 0, textTop := cardTotalHeight - textH }

/-! ## Image cascade and no-image gate (route.ts lines 61-64 and 166-171) -/

/-- What the request does once metadata is extracted: either answer
immediately with an error response, or go on to fetch the article
image.  The 400 no-image response is returned before any image fetch
is attempted. -/
inductive ImageStep where
  | respond (status : Nat) (error : String)
  | fetchImage (imageUrl : String)
  deriving DecidableEq

/-- The og:image / twitter:image / og:image:url ||-cascade
(route.ts lines 61-64); a missing attribute is none and the chain ends
in the empty string. -/
def imageUrlCascade (og tw ogUrl : Option String) : String :=
  firstNonEmpty [og.getD "", tw.getD "", ogUrl.getD ""]

/-- The gate at route.ts lines 166-171. -/
def imageGate (imageUrl : String) : ImageStep :=
  if imageUrl = "" then
    ImageStep.respond 400 "No article image found. Please try a different article."
  else ImageStep.fetchImage imageUrl

/-! ## Retry/Fetch Shim (src/unnamed/part_001 lines 40-96) -/

/-- Result of one fetch attempt: an HTTP response with a status code,
or a network-level failure carrying the thrown error's message. -/
inductive FetchRes where
  | resp (status : Nat)
  | netErr (reason : String)
  deriving DecidableEq

def maxRetries : Nat := 3

/-- The break condition at part_001 line 68: htmlResponse.ok covers
statuses 200-299 and the second disjunct covers 400-499. -/
def isStopStatus (status : Nat) : Bool :=
  (200 ≤ status && status < 300) || (400 ≤ status && status < 500)

/-- The mutable state of the retry loop: the last assigned response
(htmlResponse keeps its previous value when a later attempt throws),
the last network error, the backoff sleeps performed (in milliseconds),
and how many attempts were made. -/
structure RetryState where
  htmlResponse : Option Nat
  lastError : Option String
  backoffs : List Nat
  attemptsMade : Nat
  deriving DecidableEq

/-- The for-loop of part_001 lines 45-88.  The fuel argument is the
number of loop iterations still allowed (maxRetries - attempt). -/
def retryGo (results : Nat → FetchRes) : Nat → Nat → RetryState → RetryState
  | 0, _, st => st
  | fuel + 1, attempt, st =>
    match results attempt with
    | FetchRes.resp status =>
      if isStopStatus status then
        { st with htmlResponse := some status, attemptsMade := st.attemptsMade + 1 }
      else if 500 ≤ status ∧ attempt < maxRetries - 1 then
        retryGo results fuel (attempt + 1)
          { st with
              htmlResponse := some status
              attemptsMade := st.attemptsMade + 1
              backoffs := st.backoffs ++ [2 ^ attempt * 1000] }
      else
        { st with htmlResponse := some status, attemptsMade := st.attemptsMade + 1 }
    | FetchRes.netErr reason =>
      if attempt < maxRetries - 1 then
        retryGo results fuel (attempt + 1)
          { st with
              lastError := some reason
              attemptsMade := st.attemptsMade + 1
              backoffs := st.backoffs ++ [2 ^ attempt * 1000] }
      else
        { st with lastError := some reason, attemptsMade := st.attemptsMade + 1 }

def runRetry (results : Nat → FetchRes) : RetryState :=
  retryGo results maxRetries 0 ⟨none, none, [], 0⟩

/-- What the shim hands to the rest of the handler: either the (last
assigned) HTTP response, or the 500 network-failure JSON response built
at part_001 lines 90-96. -/
inductive ShimOutcome where
  | httpResponse (status : Nat)
  | networkFailure (errMsg : String)
  deriving DecidableEq

def fetchShim (results : Nat → FetchRes) : ShimOutcome :=
  let st := runRetry results
  match st.htmlResponse with
  | none =>
    ShimOutcome.networkFailure
      ("Failed to fetch article: " ++ (st.lastError.getD "Network error"))
  | some status => ShimOutcome.httpResponse status

/-! ## Field Resolver (src/unnamed/part_001 lines 129-231)

Each JSON-LD block either fails to parse (skipped by the catch) or
yields a list of schema objects (a parsed array is traversed in order;
a single object becomes a one-element list).  The dynamic shape of the
author and publisher values is captured by small inductives mirroring
the typeof tests in the code; a truthy JS string is non-empty. -/

/-- Shape of a truthy data.author value (part_001 lines 145-153).
arrA holds the entries surviving the map over (a.name || a) followed by
filter(Boolean);
otherA is a truthy value matching none of the three branches. -/
inductive AuthorField where
  | absent
  | arrA (kept : List String)
  | objA (name : String)
  | strA (s : String)
  | otherA
  deriving DecidableEq

/-- Shape of a data.publisher value (part_001 lines 156-162). -/
inductive PubField where
  | absentP
  | objP (name : String)
  | strP (s : String)
  | otherP
  deriving DecidableEq

/-- One schema object of a JSON-LD block; datePublished is some s when
the value is truthy. -/
structure LdObj where
  authorF : AuthorField
  publisherF : PubField
  datePublished : Option String
  deriving DecidableEq

/-- The string assigned by the author branch, if any branch fires. -/
def extractAuthor : AuthorField → Option String
  | AuthorField.absent => none
  | AuthorField.arrA kept => some (String.intercalate ", " kept)
  | AuthorField.objA name => some name
  | AuthorField.strA s => some s
  | AuthorField.otherA => none

def extractPublisher : PubField → Option String
  | PubField.absentP => none
  | PubField.objP name => some name
  | PubField.strP s => some s
  | PubField.otherP => none

/-- Resolver state: the three let-bound strings of part_001
lines 129-131. -/
structure ResolveState where
  author : String
  source : String
  date : String
  deriving DecidableEq

def initialResolveState : ResolveState := ⟨"", "", ""⟩

/-- One guarded assignment: only an empty field is written. -/
def applyField (cur : String) (cand : Option String) : String :=
  if cur = "" then (match cand with | some v => v | none => cur) else cur

/-- Processing of one schema object (part_001 lines 144-167). -/
def stepObj (st : ResolveState) (o : LdObj) : ResolveState :=
  { author := applyField st.author (extractAuthor o.authorF)
  , source := applyField st.source (extractPublisher o.publisherF)
  , date := applyField st.date o.datePublished }

/-- The inner for-loop with its early break once all three fields are
non-empty (part_001 lines 143-171). -/
def scanObjs : ResolveState → List LdObj → ResolveState
  | st, [] => st
  | st, o :: os =>
    let st' := stepObj st o
    if st'.author ≠ "" ∧ st'.source ≠ "" ∧ st'.date ≠ "" then st'
    else scanObjs st' os

/-- The outer .each over script blocks (part_001 lines 135-175): a
block whose JSON.parse throws is skipped by the catch. -/
def scanBlocks : ResolveState → List (Option (List LdObj)) → ResolveState
  | st, [] => st
  | st, none :: bs => scanBlocks st bs
  | st, some objs :: bs => scanBlocks (scanObjs st objs) bs

/-- The per-field candidate strings a list of schema objects offers, in
order (the spec-level view of the same data). -/
def authorCands (objs : List LdObj) : List String :=
  objs.filterMap (fun o => extractAuthor o.authorF)

def sourceCands (objs : List LdObj) : List String :=
  objs.filterMap (fun o => extractPublisher o.publisherF)

def dateCands (objs : List LdObj) : List String :=
  objs.filterMap (fun o => o.datePublished)

def blockCands (cands : List LdObj → List String)
    (blocks : List (Option (List LdObj))) : List String :=
  blocks.flatMap (fun b => match b with | none => [] | some objs => cands objs)

/-! ## The article:author profile-URL heuristic (part_001 lines 184-203) -/

/-- The literal character list of "profile/". -/
def patL : List Char := ['p', 'r', 'o', 'f', 'i', 'l', 'e', '/']

/-- Substring test, modelling String.prototype.includes. -/
def hasSubL (pat : List Char) : List Char → Bool
  | [] => pat.isEmpty
  | c :: cs => pat.isPrefixOf (c :: cs) || hasSubL pat cs

/-- JS whitespace as far as these inputs are concerned. -/
def isJsWS (c : Char) : Bool := c = ' ' || c = '\t' || c = '\n' || c = '\r'

/-- String.prototype.trim. -/
def trimL (xs : List Char) : List Char :=
  ((xs.dropWhile isJsWS).reverse.dropWhile isJsWS).reverse

/-- The regex match against (the escaped) profile-slash followed by one
or more characters up to the end of input: the engine takes the first
occurrence of "profile/" whose remainder-to-end is non-empty and
newline-free (the dot cannot cross a newline and the dollar anchors at
the end), and the greedy group captures that whole remainder. -/
def matchProfileL : List Char → Option (List Char)
  | [] => none
  | c :: cs =>
    if patL.isPrefixOf (c :: cs) then
      let rem := (c :: cs).drop patL.length
      if rem ≠ [] ∧ rem.contains '\n' = false then some rem else matchProfileL cs
    else matchProfileL cs

/-- .replace of every dash with a space. -/
def dashToSpaceL (xs : List Char) : List Char :=
  xs.map (fun c => if c = '-' then ' ' else c)

/-- The JS word-character class (backslash-w): ASCII letters, digits
and underscore. -/
def isWordCharJs (c : Char) : Bool :=
  ('a' ≤ c && c ≤ 'z') || ('A' ≤ c && c ≤ 'Z') || ('0' ≤ c && c ≤ '9') || c = '_'

/-- The global replace of every word character at a word boundary with
its upper-case form: the boolean tracks whether the previous character
was a non-word character (true at the start of input). -/
def titleCaseGo : Bool → List Char → List Char
  | _, [] => []
  | atBoundary, c :: cs =>
    (if atBoundary && isWordCharJs c then c.toUpper else c) ::
      titleCaseGo (!isWordCharJs c) cs

def titleCaseL (xs : List Char) : List Char := titleCaseGo true xs

/-- Separator-joined concatenation, as used by split/join reasoning. -/
def intercalateL (sep : List Char) : List (List Char) → List Char
  | [] => []
  | [x] => x
  | x :: xs => x ++ sep ++ intercalateL sep xs

/-- The per-URL body of the map at part_001 lines 191-194: trim, match
the profile regex, then dash-to-space and title-case the capture; an
unmatched URL becomes the empty string (later dropped by
filter(Boolean)). -/
def profileNameL (url : List Char) : List Char :=
  match matchProfileL (trimL url) with
  | some captured => titleCaseL (dashToSpaceL captured)
  | none => []

/-- The whole heuristic (part_001 lines 186-199): when the meta content
contains "profile/", split on commas, convert each piece and join the
non-empty results with ", "; otherwise the content is used verbatim. -/
def articleAuthorHeuristicL (articleAuthor : List Char) : List Char :=
  if hasSubL patL articleAuthor then
    intercalateL (',' :: ' ' :: [])
      (((splitChar ',' articleAuthor).map profileNameL).filter (fun l => l ≠ []))
  else articleAuthor

def articleAuthorHeuristic (articleAuthor : String) : String :=
  String.mk (articleAuthorHeuristicL articleAuthor.data)

/-- The specification's description of the same computation: take the
last path segment of each URL, replace dashes with spaces, title-case
the words, and join with ", ". -/
def lastSegmentL (url : List Char) : List Char :=
  (splitChar '/' url).getLastD []

def specProfileName (url : List Char) : List Char :=
  titleCaseL (dashToSpaceL (lastSegmentL url))

def specAuthorFromUrls (urls : List (List Char)) : List Char :=
  intercalateL (',' :: ' ' :: []) (urls.map specProfileName)

/-! ## Fallback tiers after the JSON-LD scan (part_001 lines 177-231) -/

/-- The author fallback (part_001 lines 178-203 and 229-231): when the
scanned author is empty, try the meta/selector ||-chain; when that is
empty too, run the article:author heuristic; finally default to
"Unknown Author". -/
def resolveAuthor (scanned metaChain articleAuthor : String) : String :=
  let a1 :=
    if scanned = "" then
      (if metaChain = "" then articleAuthorHeuristic articleAuthor else metaChain)
    else scanned
  if a1 = "" then "Unknown Author" else a1

/-- The date fallback (part_001 lines 205-210): the ||-chain over
article:published_time, publish_date and the first time[datetime]. -/
def resolveDate (scanned t1 t2 t3 : String) : String :=
  if scanned = "" then firstNonEmpty [t1, t2, t3] else scanned

/-- The source fallback (part_001 lines 212-226): og:site_name then
application-name, then the hostname-derived fallback (or
"Unknown Source" when the URL cannot be re-parsed); hostFallback is
that final value. -/
def resolveSource (scanned m1 m2 hostFallback : String) : String :=
  let s1 := if scanned = "" then firstNonEmpty [m1, m2] else scanned
  if s1 = "" then hostFallback else s1

/-- The complete author resolution for a document: JSON-LD scan first,
then the fallback tiers. -/
def resolveAuthorFull (blocks : List (Option (List LdObj)))
    (metaName relAuthor dotAuthor articleAuthor : String) : String :=
  resolveAuthor (scanBlocks initialResolveState blocks).author
    (firstNonEmpty [metaName, relAuthor, dotAuthor]) articleAuthor

def resolveDateFull (blocks : List (Option (List LdObj))) (t1 t2 t3 : String) : String :=
  resolveDate (scanBlocks initialResolveState blocks).date t1 t2 t3

def resolveSourceFull (blocks : List (Option (List LdObj)))
    (m1 m2 hostFallback : String) : String :=
  resolveSource (scanBlocks initialResolveState blocks).source m1 m2 hostFallback

/-! ## Theorems -/

/-- C3 counterexample: the claim says that on empty input or parse
failure the formatter returns the current date in "Month Day, Year"
form.  On the empty input the code returns the abbreviated dashed form
"Jan-05-2024", and on a non-empty unparseable input it returns the
string "Invalid Date"; neither equals the long form of the current
date. -/
theorem c3_claim_counterexample :
    formatDate "" none ⟨2024, 1, 5⟩ = "Jan-05-2024" ∧
    formatDate "" none ⟨2024, 1, 5⟩ ≠ localeLong ⟨2024, 1, 5⟩ ∧
    formatDate "not a date" none ⟨2024, 1, 5⟩ = "Invalid Date" ∧
    formatDate "not a date" none ⟨2024, 1, 5⟩ ≠ localeLong ⟨2024, 1, 5⟩ := by
  refine ⟨rfl, by decide, rfl, by decide⟩

/-- C3 (amended): a non-empty date string that parses is formatted as
"Month Day, Year"; a non-empty date string that fails to parse yields
the literal string "Invalid Date" (toLocaleDateString of an invalid
date does not throw); an empty date string yields the current date in
the abbreviated dashed "Mon-DD-YYYY" form (which is also what the
exception handler would produce). -/
theorem c3_date_format (date : String) (parsed : Option CalDate) (now : CalDate) :
    (∀ d, date ≠ "" → parsed = some d → formatDate date parsed now = localeLong d) ∧
    (date ≠ "" → parsed = none → formatDate date parsed now = "Invalid Date") ∧
    (date = "" → formatDate date parsed now = dashedShort now) := by
  refine ⟨?_, ?_, ?_⟩
  · intro d hne hp
    simp [formatDate, hne, hp]
  · intro hne hp
    simp [formatDate, hne, hp]
  · intro he
    simp [formatDate, he]

/-- Witness for c3_date_format at concrete inputs. -/
theorem c3_date_format_witness :
    formatDate "2024-01-05" (some ⟨2024, 1, 5⟩) ⟨2025, 10, 11⟩ = localeLong ⟨2024, 1, 5⟩ ∧
    formatDate "garbage" none ⟨2025, 10, 11⟩ = "Invalid Date" ∧
    formatDate "" none ⟨2025, 10, 11⟩ = dashedShort ⟨2025, 10, 11⟩ :=
  ⟨(c3_date_format "2024-01-05" (some ⟨2024, 1, 5⟩) ⟨2025, 10, 11⟩).1 ⟨2024, 1, 5⟩
      (by decide) rfl,
   (c3_date_format "garbage" none ⟨2025, 10, 11⟩).2.1 (by decide) rfl,
   (c3_date_format "" none ⟨2025, 10, 11⟩).2.2 rfl⟩

theorem metadataBlockHeight_eq_spec (iA iD : Bool) (alc : Nat) :
    metadataBlockHeight iA iD alc = specMetadataBlockHeight iA iD alc := by
  cases iA <;> cases iD <;>
    simp [metadataBlockHeight, specMetadataBlockHeight]

/-- C4: the computed text-box height equals the formula of the claim
exactly, for every title line count, font tier, author line count and
flag combination; and when both includeAuthor and includeDate are
false, the metadata block height is exactly 0 and the SVG template
emits no metadata text. -/
theorem c4_textbox_height (tlc : Nat) (fs lh : ℚ) (iA iD : Bool) (alc : Nat) :
    textHeight tlc fs lh iA iD alc = specTextHeight tlc fs lh iA iD alc ∧
    (iA = false → iD = false →
      metadataBlockHeight iA iD alc = 0 ∧ metadataRendered iA iD alc = false) := by
  constructor
  · simp only [textHeight, specTextHeight, titleBlockHeight, metadataBlockHeight_eq_spec]
    apply congrArg
    ring
  · intro hA hD
    subst hA; subst hD
    constructor
    · simp [metadataBlockHeight]
    · simp [metadataRendered, metadataBlockHeight]

/-- Witness for c4_textbox_height at a concrete input with both flags
disabled. -/
theorem c4_textbox_height_witness :
    textHeight 3 48 58 false false 2 = specTextHeight 3 48 58 false false 2 ∧
    (metadataBlockHeight false false 2 = 0 ∧ metadataRendered false false 2 = false) :=
  ⟨(c4_textbox_height 3 48 58 false false 2).1,
   (c4_textbox_height 3 48 58 false false 2).2 rfl rfl⟩

/-- C5: the renderer branches on intrinsic width vs height; a strictly
wider image is cover-cropped to 800 by (1000 - textBoxHeight), placed
at the top, with an opaque white text panel below; otherwise the image
is cover-cropped to the full 800 by 1000 card and the panel is
0.85-alpha white overlaid at the bottom (vertical offset
1000 - textBoxHeight). -/
theorem c5_orientation (w h : Nat) (th : ℤ) :
    (w > h → renderPlan (some w) (some h) th =
      ⟨cardWidth, cardTotalHeight - th, "cover", "#FFFFFF", 0, cardTotalHeight - th⟩) ∧
    (w ≤ h → renderPlan (some w) (some h) th =
      ⟨cardWidth, cardTotalHeight, "cover", "rgba(255, 255, 255, 0.85)", 0,
        cardTotalHeight - th⟩) := by
  constructor
  · intro hwh
    simp [renderPlan, hwh]
  · intro hwh
    simp [renderPlan, Nat.not_lt.mpr hwh]

/-- Witness for c5_orientation: a 1200 by 600 image takes the
horizontal branch and a 600 by 1200 image takes the vertical branch. -/
theorem c5_orientation_witness :
    renderPlan (some 1200) (some 600) 280 =
      ⟨cardWidth, cardTotalHeight - 280, "cover", "#FFFFFF", 0, cardTotalHeight - 280⟩ ∧
    renderPlan (some 600) (some 1200) 280 =
      ⟨cardWidth, cardTotalHeight, "cover", "rgba(255, 255, 255, 0.85)", 0,
        cardTotalHeight - 280⟩ :=
  ⟨(c5_orientation 1200 600 280).1 (by decide),
   (c5_orientation 600 1200 280).2 (by decide)⟩

/-- C6: when none of the og:image, twitter:image and og:image:url meta
tags yields a non-empty content value, the handler responds 400 with
the no-image error and never reaches the image fetch. -/
theorem c6_no_image (og tw ogUrl : Option String)
    (h1 : og.getD "" = "") (h2 : tw.getD "" = "") (h3 : ogUrl.getD "" = "") :
    imageGate (imageUrlCascade og tw ogUrl) =
      ImageStep.respond 400 "No article image found. Please try a different article." ∧
    ∀ u, imageGate (imageUrlCascade og tw ogUrl) ≠ ImageStep.fetchImage u := by
  have hc : imageUrlCascade og tw ogUrl = "" := by
    simp [imageUrlCascade, firstNonEmpty, h1, h2, h3]
  refine ⟨by simp [hc, imageGate], ?_⟩
  intro u
  simp [hc, imageGate]

/-- Witness for c6_no_image with all three meta tags missing. -/
theorem c6_no_image_witness :
    imageGate (imageUrlCascade none none none) =
      ImageStep.respond 400 "No article image found. Please try a different article." :=
  (c6_no_image none none none rfl rfl rfl).1

/-- C9: a title longer than 150 characters becomes its first 150
characters followed by "..."; a title of at most 150 characters passes
through unchanged. -/
theorem c9_title_truncation (title : String) :
    (title.length > 150 →
      cleanTitle title = String.mk (title.data.take 150) ++ "..." ∧
      (cleanTitle title).data = title.data.take 150 ++ "...".data) ∧
    (title.length ≤ 150 → cleanTitle title = title) := by
  constructor
  · intro hlen
    constructor
    · simp [cleanTitle, hlen]
    · simp [cleanTitle, hlen]
  · intro hlen
    simp [cleanTitle, Nat.not_lt.mpr hlen]

/-- Witness for c9_title_truncation on a 151-character title. -/
theorem c9_title_truncation_witness :
    (String.mk (List.replicate 151 'a')).length > 150 ∧
    cleanTitle (String.mk (List.replicate 151 'a')) =
      String.mk ((String.mk (List.replicate 151 'a')).data.take 150) ++ "..." :=
  ⟨by decide, ((c9_title_truncation (String.mk (List.replicate 151 'a'))).1 (by decide)).1⟩

/-! ### Wrap-engine lemmas shared by the C1 and C10 theorems -/

/-- Words produced by split(' ') contain no space. -/
theorem wordsOf_no_space (s : String) : ∀ w ∈ wordsOf s, ' ' ∉ w.data := by
  intro w hw
  rcases List.mem_map.mp hw with ⟨l, hl, rfl⟩
  exact splitChar_not_mem ' ' s.data l hl

theorem wrapFold_inv (budget : Nat) (allWords : List String)
    (hwords : ∀ w ∈ allWords, ' ' ∉ w.data)
    (lines : List String) (w : String) (hw : w ∈ allWords)
    (hinv : ∀ l ∈ lines, l.length < budget ∨ (' ' ∉ l.data ∧ l ∈ allWords)) :
    ∀ l ∈ wrapFold budget lines w,
      l.length < budget ∨ (' ' ∉ l.data ∧ l ∈ allWords) := by
  intro l hl
  unfold wrapFold at hl
  split at hl
  · rename_i hcond
    rcases List.mem_append.mp hl with h | h
    · exact hinv l (List.dropLast_subset lines h)
    · have hle : l = lines.getLastD "" ++ " " ++ w := by simpa using h
      subst hle
      exact Or.inl hcond.2
  · rcases List.mem_append.mp hl with h | h
    · exact hinv l h
    · have hle : l = w := by simpa using h
      rw [hle]
      exact Or.inr ⟨hwords w hw, hw⟩

theorem wrap_foldl_inv (budget : Nat) (allWords : List String)
    (hwords : ∀ w ∈ allWords, ' ' ∉ w.data) :
    ∀ (ws : List String), (∀ w ∈ ws, w ∈ allWords) →
    ∀ (lines : List String),
      (∀ l ∈ lines, l.length < budget ∨ (' ' ∉ l.data ∧ l ∈ allWords)) →
      ∀ l ∈ ws.foldl (wrapFold budget) lines,
        l.length < budget ∨ (' ' ∉ l.data ∧ l ∈ allWords) := by
  intro ws
  induction ws with
  | nil =>
    intro _ lines hinv l hl
    exact hinv l hl
  | cons w ws ih =>
    intro hsub lines hinv l hl
    refine ih (fun x hx => hsub x (List.mem_cons_of_mem w hx))
      (wrapFold budget lines w) ?_ l hl
    exact wrapFold_inv budget allWords hwords lines w (hsub w (List.mem_cons_self w ws)) hinv

/-- C1 (amended): every line produced by the greedy word-wrap is
strictly shorter than the budget, except a line consisting of a single
word (one of the split words, kept unsplit on its own line) whose
length equals or exceeds the budget. -/
theorem c1_wrap_budget (budget : Nat) (s line : String) (hb : 0 < budget)
    (hm : line ∈ wrapLines budget s) :
    line.length < budget ∨
      (' ' ∉ line.data ∧ budget ≤ line.length ∧ line ∈ wordsOf s) := by
  have h := wrap_foldl_inv budget (wordsOf s) (wordsOf_no_space s) (wordsOf s)
    (fun w hw => hw) [""] ?_ line hm
  · rcases h with h | h
    · exact Or.inl h
    · by_cases hlen : line.length < budget
      · exact Or.inl hlen
      · exact Or.inr ⟨h.1, Nat.le_of_not_lt hlen, h.2⟩
  · intro l hl
    have : l = "" := by simpa using hl
    subst this
    exact Or.inl hb

/-- Witness for c1_wrap_budget. -/
theorem c1_wrap_budget_witness :
    0 < 25 ∧ "hello world" ∈ wrapLines 25 "hello world" ∧
    (("hello world" : String).length < 25 ∨
      (' ' ∉ ("hello world" : String).data ∧ 25 ≤ ("hello world" : String).length ∧
        "hello world" ∈ wordsOf "hello world")) :=
  ⟨by decide, by decide,
   c1_wrap_budget 25 "hello world" "hello world" (by decide) (by decide)⟩

/-- C1 counterexample: a title that is a single word of exactly 25
characters is configured with a 25-character budget and is emitted as
a line that is neither strictly shorter than the budget nor longer
than it, so the dichotomy claimed (strictly shorter, or a single word
exceeding the budget) fails at it. -/
theorem c1_claim_counterexample :
    (titleTier "aaaaaaaaaaaaaaaaaaaaaaaaa").maxChars = 25 ∧
    "aaaaaaaaaaaaaaaaaaaaaaaaa" ∈ titleLinesOf "aaaaaaaaaaaaaaaaaaaaaaaaa" ∧
    ¬ (("aaaaaaaaaaaaaaaaaaaaaaaaa" : String).length < 25 ∨
       25 < ("aaaaaaaaaaaaaaaaaaaaaaaaa" : String).length) := by
  refine ⟨by decide, by decide, by decide⟩

/-! ### Seed-line lemmas for C10 -/

theorem wrap_foldl_shape (budget : Nat) :
    ∀ (ws : List String) (rest : List String),
      (∀ l ∈ rest, l ≠ "") → (∀ w ∈ ws, w ≠ "") →
      ∃ rest', ws.foldl (wrapFold budget) ("" :: rest) = "" :: rest' ∧
        ∀ l ∈ rest', l ≠ "" := by
  intro ws
  induction ws with
  | nil =>
    intro rest hrest _
    exact ⟨rest, rfl, hrest⟩
  | cons w ws ih =>
    intro rest hrest hws
    have hw : w ≠ "" := hws w (List.mem_cons_self w ws)
    have hws' : ∀ x ∈ ws, x ≠ "" := fun x hx => hws x (List.mem_cons_of_mem w hx)
    simp only [List.foldl_cons]
    rcases List.eq_nil_or_concat rest with hnil | ⟨front, lastL, hc⟩
    · subst hnil
      have hstep : wrapFold budget ("" :: []) w = "" :: [w] := by
        simp [wrapFold]
      rw [hstep]
      refine ih [w] ?_ hws'
      intro l hl
      have : l = w := by simpa using hl
      subst this
      exact hw
    · subst hc
      simp only [List.concat_eq_append] at hrest ⊢
      have hlast : ("" :: (front ++ [lastL])).getLastD "" = lastL := by
        rw [show ("" :: (front ++ [lastL])) = ("" :: front) ++ [lastL] by simp]
        exact List.getLastD_concat _ _ _
      simp only [wrapFold]
      rw [hlast]
      split
    -- the current line is extended in place
      · have hdrop : ("" :: (front ++ [lastL])).dropLast = "" :: front := by
          rw [show ("" :: (front ++ [lastL])) = ("" :: front) ++ [lastL] by simp]
          exact List.dropLast_concat
        rw [hdrop]
        rw [show ("" :: front) ++ [lastL ++ " " ++ w] =
          "" :: (front ++ [lastL ++ " " ++ w]) by simp]
        refine ih (front ++ [lastL ++ " " ++ w]) ?_ hws'
        intro l hl
        rcases List.mem_append.mp hl with h | h
        · exact hrest l (List.mem_append_left _ h)
        · have : l = lastL ++ " " ++ w := by simpa using h
          subst this
          intro hcontra
          have hlen := congrArg String.length hcontra
          simp [String.length_append] at hlen
          exact absurd hlen.1.2 (by decide)
    -- a new line is pushed
      · rw [show ("" :: (front ++ [lastL])) ++ [w] =
          "" :: ((front ++ [lastL]) ++ [w]) by simp]
        refine ih ((front ++ [lastL]) ++ [w]) ?_ hws'
        intro l hl
        rcases List.mem_append.mp hl with h | h
        · exact hrest l h
        · have : l = w := by simpa using h
          subst this
          exact hw

theorem wrap_foldl_any_shape (budget : Nat) :
    ∀ (ws : List String) (rest : List String),
      ∃ rest', ws.foldl (wrapFold budget) ("" :: rest) = "" :: rest' := by
  intro ws
  induction ws with
  | nil =>
    intro rest
    exact ⟨rest, rfl⟩
  | cons w ws ih =>
    intro rest
    simp only [List.foldl_cons]
    unfold wrapFold
    split
    · rename_i hcond
      rcases List.eq_nil_or_concat rest with hnil | ⟨front, lastL, hc⟩
      · subst hnil
        exact absurd rfl hcond.1
      · subst hc
        simp only [List.concat_eq_append]
        have hdrop : ("" :: (front ++ [lastL])).dropLast = "" :: front := by
          rw [show ("" :: (front ++ [lastL])) = ("" :: front) ++ [lastL] by simp]
          exact List.dropLast_concat
        rw [hdrop]
        rw [show ("" :: front) ++
          [("" :: (front ++ [lastL])).getLastD "" ++ " " ++ w] =
          "" :: (front ++ [("" :: (front ++ [lastL])).getLastD "" ++ " " ++ w]) by simp]
        exact ih _
    · rw [show ("" :: rest) ++ [w] = "" :: (rest ++ [w]) by simp]
      exact ih _

/-- C10 (amended): the wrap always returns a list whose first element
is the seed empty line (the empty current line fails the truthiness
test, so the first word starts a new line); and when every
space-delimited word of the input is non-empty (no leading, trailing
or consecutive spaces and a non-empty input), the returned line count
is exactly one greater than the number of lines containing text. -/
theorem c10_seed_line (maxChars : Nat) (s : String) :
    (wrapLines maxChars s).headD "x" = "" ∧
    ((∀ w ∈ wordsOf s, w ≠ "") →
      (wrapLines maxChars s).length =
        ((wrapLines maxChars s).filter (fun l => l ≠ "")).length + 1) := by
  constructor
  · unfold wrapLines
    rcases wrap_foldl_any_shape maxChars (wordsOf s) [] with ⟨rest', heq⟩
    rw [heq]
    rfl
  · intro hws
    unfold wrapLines
    rcases wrap_foldl_shape maxChars (wordsOf s) [] (by intro l hl; simp at hl) hws with
      ⟨rest', heq, hne⟩
    rw [heq]
    have hfilter : ("" :: rest').filter (fun l => l ≠ "") = rest' := by
      rw [List.filter_cons]
      simp only [decide_not]
      rw [if_neg (by simp)]
      exact List.filter_eq_self.mpr (fun a ha => by simpa using hne a ha)
    rw [hfilter]
    simp

/-- Witness for c10_seed_line. -/
theorem c10_seed_line_witness :
    (wrapLines 25 "hello world").headD "x" = "" ∧
    (wrapLines 25 "hello world").length =
      ((wrapLines 25 "hello world").filter (fun l => l ≠ "")).length + 1 :=
  ⟨(c10_seed_line 25 "hello world").1, (c10_seed_line 25 "hello world").2 (by decide)⟩

/-- C10 counterexample: for the input " A" (a leading space makes the
first split word empty) the wrap returns three lines, two of them
empty, so the line count is not one greater than the number of lines
containing text as the claim asserts for every input string. -/
theorem c10_claim_counterexample :
    wrapLines 25 " A" = ["", "", "A"] ∧
    (wrapLines 25 " A").length ≠
      ((wrapLines 25 " A").filter (fun l => l ≠ "")).length + 1 := by
  refine ⟨by decide, by decide⟩

/-! ### Resolver-cascade lemmas for C2 -/

/-- The specification-level resolution of one field: the current value
wins if non-empty, otherwise the first non-empty candidate. -/
def resolveField (cur : String) (cands : List String) : String :=
  if cur = "" then firstNonEmpty cands else cur

/-- Prepend an optional candidate to a candidate list. -/
def candsCons (cand : Option String) (rest : List String) : List String :=
  match cand with
  | some v => v :: rest
  | none => rest

theorem applyField_ne_empty (cur : String) (cand : Option String) (rest : List String)
    (h : applyField cur cand ≠ "") :
    applyField cur cand = resolveField cur (candsCons cand rest) := by
  by_cases hcur : cur = ""
  · subst hcur
    cases cand with
    | none => simp [applyField] at h
    | some v =>
      have hv : v ≠ "" := by simpa [applyField] using h
      simp [applyField, candsCons, resolveField, firstNonEmpty, hv]
  · simp [applyField, hcur, resolveField]

theorem resolveField_applyField (cur : String) (cand : Option String) (rest : List String) :
    resolveField (applyField cur cand) rest = resolveField cur (candsCons cand rest) := by
  by_cases hcur : cur = ""
  · subst hcur
    cases cand with
    | none => simp [applyField, candsCons]
    | some v =>
      by_cases hv : v = ""
      · subst hv
        simp [applyField, candsCons, resolveField, firstNonEmpty]
      · simp [applyField, candsCons, resolveField, firstNonEmpty, hv]
  · cases cand <;> simp [applyField, hcur, resolveField, candsCons]

theorem resolveField_resolveField (cur : String) (cs1 cs2 : List String) :
    resolveField (resolveField cur cs1) cs2 = resolveField cur (cs1 ++ cs2) := by
  by_cases hcur : cur = ""
  · subst hcur
    by_cases h1 : firstNonEmpty cs1 = "" <;>
      simp [resolveField, firstNonEmpty_append, h1]
  · simp [resolveField, hcur]

theorem authorCands_cons (o : LdObj) (os : List LdObj) :
    authorCands (o :: os) = candsCons (extractAuthor o.authorF) (authorCands os) := by
  cases hcand : extractAuthor o.authorF <;>
    simp [authorCands, List.filterMap_cons, hcand, candsCons]

theorem sourceCands_cons (o : LdObj) (os : List LdObj) :
    sourceCands (o :: os) = candsCons (extractPublisher o.publisherF) (sourceCands os) := by
  cases hcand : extractPublisher o.publisherF <;>
    simp [sourceCands, List.filterMap_cons, hcand, candsCons]

theorem dateCands_cons (o : LdObj) (os : List LdObj) :
    dateCands (o :: os) = candsCons o.datePublished (dateCands os) := by
  cases hcand : o.datePublished <;>
    simp [dateCands, List.filterMap_cons, hcand, candsCons]

/-- The break-guarded inner scan computes, for each field, exactly the
first-non-empty-candidate semantics. -/
theorem scanObjs_eq (os : List LdObj) (st : ResolveState) :
    scanObjs st os =
      ⟨resolveField st.author (authorCands os),
       resolveField st.source (sourceCands os),
       resolveField st.date (dateCands os)⟩ := by
  induction os generalizing st with
  | nil =>
    cases st with
    | mk a s d =>
      simp only [scanObjs, authorCands, sourceCands, dateCands, List.filterMap_nil,
        resolveField, firstNonEmpty, ResolveState.mk.injEq]
      refine ⟨?_, ?_, ?_⟩ <;> split_ifs with h <;> simp [h]
  | cons o os ih =>
    simp only [scanObjs]
    rw [authorCands_cons, sourceCands_cons, dateCands_cons]
    split
    · rename_i hbrk
      obtain ⟨hA, hS, hD⟩ := hbrk
      cases st with
      | mk a s d =>
        simp only [stepObj] at hA hS hD ⊢
        simp only [ResolveState.mk.injEq]
        exact ⟨applyField_ne_empty a _ _ hA, applyField_ne_empty s _ _ hS,
          applyField_ne_empty d _ _ hD⟩
    · rw [ih]
      cases st with
      | mk a s d =>
        simp only [stepObj, ResolveState.mk.injEq]
        exact ⟨resolveField_applyField a _ _, resolveField_applyField s _ _,
          resolveField_applyField d _ _⟩

theorem blockCands_none (cands : List LdObj → List String)
    (bs : List (Option (List LdObj))) :
    blockCands cands (none :: bs) = blockCands cands bs := by
  simp [blockCands]

theorem blockCands_some (cands : List LdObj → List String)
    (objs : List LdObj) (bs : List (Option (List LdObj))) :
    blockCands cands (some objs :: bs) = cands objs ++ blockCands cands bs := by
  simp [blockCands]

/-- The outer block scan computes, for each field, the
first-non-empty-candidate semantics over the concatenation of every
parseable block's candidates in document order. -/
theorem scanBlocks_eq (bs : List (Option (List LdObj))) (st : ResolveState) :
    scanBlocks st bs =
      ⟨resolveField st.author (blockCands authorCands bs),
       resolveField st.source (blockCands sourceCands bs),
       resolveField st.date (blockCands dateCands bs)⟩ := by
  induction bs generalizing st with
  | nil =>
    cases st with
    | mk a s d =>
      simp only [scanBlocks, blockCands, List.flatMap_nil, resolveField, firstNonEmpty,
        ResolveState.mk.injEq]
      refine ⟨?_, ?_, ?_⟩ <;> split_ifs with h <;> simp [h]
  | cons b bs ih =>
    cases b with
    | none =>
      simp only [scanBlocks]
      rw [ih, blockCands_none, blockCands_none, blockCands_none]
    | some objs =>
      simp only [scanBlocks]
      rw [ih, scanObjs_eq]
      simp only [blockCands_some, ResolveState.mk.injEq]
      exact ⟨resolveField_resolveField _ _ _, resolveField_resolveField _ _ _,
        resolveField_resolveField _ _ _⟩

theorem firstNonEmpty_cons_eq (xs ys : List String) :
    firstNonEmpty (firstNonEmpty xs :: ys) = firstNonEmpty (xs ++ ys) := by
  rw [firstNonEmpty_append]
  by_cases h : firstNonEmpty xs = "" <;> simp [firstNonEmpty, h]

theorem resolveAuthor_cascade (scanned m r d aa : String) :
    resolveAuthor scanned (firstNonEmpty [m, r, d]) aa =
      firstNonEmpty [scanned, m, r, d, articleAuthorHeuristic aa, "Unknown Author"] := by
  by_cases h1 : scanned = "" <;> by_cases h2 : m = "" <;> by_cases h3 : r = "" <;>
    by_cases h4 : d = "" <;> by_cases h5 : articleAuthorHeuristic aa = "" <;>
    simp [resolveAuthor, firstNonEmpty, h1, h2, h3, h4, h5]

theorem resolveSource_cascade (scanned m1 m2 host : String) :
    resolveSource scanned m1 m2 host = firstNonEmpty [scanned, m1, m2, host] := by
  by_cases h1 : scanned = "" <;> by_cases h2 : m1 = "" <;> by_cases h3 : m2 = "" <;>
    by_cases h4 : host = "" <;> simp [resolveSource, firstNonEmpty, h1, h2, h3, h4]

theorem resolveDate_cascade (scanned t1 t2 t3 : String) :
    resolveDate scanned t1 t2 t3 = firstNonEmpty [scanned, t1, t2, t3] := by
  by_cases h1 : scanned = "" <;> simp [resolveDate, firstNonEmpty, h1]

theorem scanBlocks_author (blocks : List (Option (List LdObj))) :
    (scanBlocks initialResolveState blocks).author =
      firstNonEmpty (blockCands authorCands blocks) := by
  rw [scanBlocks_eq]
  simp [initialResolveState, resolveField]

theorem scanBlocks_source (blocks : List (Option (List LdObj))) :
    (scanBlocks initialResolveState blocks).source =
      firstNonEmpty (blockCands sourceCands blocks) := by
  rw [scanBlocks_eq]
  simp [initialResolveState, resolveField]

theorem scanBlocks_date (blocks : List (Option (List LdObj))) :
    (scanBlocks initialResolveState blocks).date =
      firstNonEmpty (blockCands dateCands blocks) := by
  rw [scanBlocks_eq]
  simp [initialResolveState, resolveField]

/-- C2: the resolved author, source and date each equal the value of
the first tier, in cascade order, that yields a non-empty string: the
JSON-LD blocks' candidates in document order, then the meta/selector
fallbacks, then (for author and source) the final defaults.  In
particular no later block or tier ever overwrites an earlier non-empty
value. -/
theorem c2_resolver_cascade (blocks : List (Option (List LdObj)))
    (metaName relAuthor dotAuthor articleAuthor m1 m2 hostFallback t1 t2 t3 : String) :
    resolveAuthorFull blocks metaName relAuthor dotAuthor articleAuthor =
      firstNonEmpty (blockCands authorCands blocks ++
        [metaName, relAuthor, dotAuthor, articleAuthorHeuristic articleAuthor,
         "Unknown Author"]) ∧
    resolveSourceFull blocks m1 m2 hostFallback =
      firstNonEmpty (blockCands sourceCands blocks ++ [m1, m2, hostFallback]) ∧
    resolveDateFull blocks t1 t2 t3 =
      firstNonEmpty (blockCands dateCands blocks ++ [t1, t2, t3]) := by
  refine ⟨?_, ?_, ?_⟩
  · unfold resolveAuthorFull
    rw [scanBlocks_author, resolveAuthor_cascade, firstNonEmpty_cons_eq]
  · unfold resolveSourceFull
    rw [scanBlocks_source, resolveSource_cascade, firstNonEmpty_cons_eq]
  · unfold resolveDateFull
    rw [scanBlocks_date, resolveDate_cascade, firstNonEmpty_cons_eq]

/-! ### Retry-shim lemmas for C7 -/

theorem retryGo_made_le (results : Nat → FetchRes) :
    ∀ (fuel a : Nat) (st : RetryState),
      (retryGo results fuel a st).attemptsMade ≤ st.attemptsMade + fuel := by
  intro fuel
  induction fuel with
  | zero =>
    intro a st
    simp [retryGo]
  | succ n ih =>
    intro a st
    rcases hra : results a with sa | ra
    · simp only [retryGo, hra]
      split_ifs with h1 h2
      · dsimp only
        omega
      · exact le_trans (ih (a + 1) _) (by dsimp only; omega)
      · dsimp only
        omega
    · simp only [retryGo, hra]
      split_ifs with h1
      · exact le_trans (ih (a + 1) _) (by dsimp only; omega)
      · dsimp only
        omega

theorem retryGo_stop_immediate (results : Nat → FetchRes) :
    ∀ (fuel a : Nat) (st : RetryState), st.attemptsMade = a →
      ∀ i s, a ≤ i → i < (retryGo results fuel a st).attemptsMade →
        results i = FetchRes.resp s → isStopStatus s = true →
        (retryGo results fuel a st).attemptsMade = i + 1 := by
  intro fuel
  induction fuel with
  | zero =>
    intro a st hmade i s hai hi hres hstop
    simp only [retryGo] at hi
    omega
  | succ n ih =>
    intro a st hmade i s hai hi hres hstop
    rcases hra : results a with sa | ra
    · simp only [retryGo, hra] at hi ⊢
      by_cases h1 : isStopStatus sa = true
      · rw [if_pos h1] at hi ⊢
        dsimp only at hi ⊢
        omega
      · rw [if_neg h1] at hi ⊢
        by_cases h2 : 500 ≤ sa ∧ a < maxRetries - 1
        · rw [if_pos h2] at hi ⊢
          rcases Nat.eq_or_lt_of_le hai with rfl | hlt
          · rw [hra] at hres
            injection hres with he
            rw [← he] at hstop
            exact absurd hstop h1
          · exact ih (a + 1) _ (by dsimp only; omega) i s hlt hi hres hstop
        · rw [if_neg h2] at hi ⊢
          dsimp only at hi ⊢
          omega
    · simp only [retryGo, hra] at hi ⊢
      by_cases h1 : a < maxRetries - 1
      · rw [if_pos h1] at hi ⊢
        rcases Nat.eq_or_lt_of_le hai with rfl | hlt
        · rw [hra] at hres
          cases hres
        · exact ih (a + 1) _ (by dsimp only; omega) i s hlt hi hres hstop
      · rw [if_neg h1] at hi ⊢
        dsimp only at hi ⊢
        omega

theorem retryGo_backoffs (results : Nat → FetchRes) :
    ∀ (fuel a : Nat) (st : RetryState), fuel + a = maxRetries → a < maxRetries →
      st.attemptsMade = a →
      st.backoffs = (List.range a).map (fun i => 2 ^ i * 1000) →
      (retryGo results fuel a st).backoffs =
        (List.range ((retryGo results fuel a st).attemptsMade - 1)).map
          (fun i => 2 ^ i * 1000) := by
  intro fuel
  induction fuel with
  | zero =>
    intro a st hfa ha _ _
    simp only [maxRetries] at hfa ha
    omega
  | succ n ih =>
    intro a st hfa ha hmade hback
    rcases hra : results a with sa | ra
    · simp only [retryGo, hra]
      split_ifs with h1 h2
      · dsimp only
        rw [hback, hmade]
        simp
      · refine ih (a + 1) _ (by omega) (by simp only [maxRetries] at h2 ⊢; omega)
          (by dsimp only; omega) ?_
        dsimp only
        rw [hback, List.range_succ, List.map_append]
        simp
      · dsimp only
        rw [hback, hmade]
        simp
    · simp only [retryGo, hra]
      split_ifs with h1
      · refine ih (a + 1) _ (by omega) (by simp only [maxRetries] at h1 ⊢; omega)
          (by dsimp only; omega) ?_
        dsimp only
        rw [hback, List.range_succ, List.map_append]
        simp
      · dsimp only
        rw [hback, hmade]
        simp

theorem retryGo_retried_transient (results : Nat → FetchRes) :
    ∀ (fuel a : Nat) (st : RetryState), st.attemptsMade = a →
      ∀ i, a ≤ i → i + 1 < (retryGo results fuel a st).attemptsMade →
        (∃ s, results i = FetchRes.resp s ∧ 500 ≤ s) ∨
          ∃ r, results i = FetchRes.netErr r := by
  intro fuel
  induction fuel with
  | zero =>
    intro a st hmade i hai hi
    simp only [retryGo] at hi
    omega
  | succ n ih =>
    intro a st hmade i hai hi
    rcases hra : results a with sa | ra
    · simp only [retryGo, hra] at hi
      by_cases h1 : isStopStatus sa = true
      · rw [if_pos h1] at hi
        dsimp only at hi
        omega
      · rw [if_neg h1] at hi
        by_cases h2 : 500 ≤ sa ∧ a < maxRetries - 1
        · rw [if_pos h2] at hi
          rcases Nat.eq_or_lt_of_le hai with rfl | hlt
          · exact Or.inl ⟨sa, hra, h2.1⟩
          · exact ih (a + 1) _ (by dsimp only; omega) i hlt hi
        · rw [if_neg h2] at hi
          dsimp only at hi
          omega
    · simp only [retryGo, hra] at hi
      by_cases h1 : a < maxRetries - 1
      · rw [if_pos h1] at hi
        rcases Nat.eq_or_lt_of_le hai with rfl | hlt
        · exact Or.inr ⟨ra, hra⟩
        · exact ih (a + 1) _ (by dsimp only; omega) i hlt hi
      · rw [if_neg h1] at hi
        dsimp only at hi
        omega

theorem retryGo_made_ge (results : Nat → FetchRes) :
    ∀ (fuel a : Nat) (st : RetryState),
      st.attemptsMade ≤ (retryGo results fuel a st).attemptsMade := by
  intro fuel
  induction fuel with
  | zero =>
    intro a st
    simp [retryGo]
  | succ n ih =>
    intro a st
    rcases hra : results a with sa | ra
    · simp only [retryGo, hra]
      split_ifs with h1 h2
      · dsimp only
        omega
      · refine le_trans ?_ (ih (a + 1) _)
        dsimp only
        omega
      · dsimp only
        omega
    · simp only [retryGo, hra]
      split_ifs with h1
      · refine le_trans ?_ (ih (a + 1) _)
        dsimp only
        omega
      · dsimp only
        omega

theorem retryGo_made_succ_ge (results : Nat → FetchRes) (n a : Nat) (st : RetryState) :
    st.attemptsMade + 1 ≤ (retryGo results (n + 1) a st).attemptsMade := by
  rcases hra : results a with sa | ra
  · simp only [retryGo, hra]
    split_ifs with h1 h2
    · dsimp only
      omega
    · refine le_trans ?_ (retryGo_made_ge results n (a + 1) _)
      dsimp only
      omega
    · dsimp only
      omega
  · simp only [retryGo, hra]
    split_ifs with h1
    · refine le_trans ?_ (retryGo_made_ge results n (a + 1) _)
      dsimp only
      omega
    · dsimp only
      omega

/-- A transient attempt (5xx response or network failure) that still
has attempts remaining is always followed by a further attempt. -/
theorem retryGo_retries (results : Nat → FetchRes) :
    ∀ (fuel a : Nat) (st : RetryState), st.attemptsMade = a →
      fuel + a = maxRetries →
      ∀ i, a ≤ i → i < (retryGo results fuel a st).attemptsMade →
        i < maxRetries - 1 →
        ((∃ s, results i = FetchRes.resp s ∧ 500 ≤ s) ∨
          (∃ r, results i = FetchRes.netErr r)) →
        i + 1 < (retryGo results fuel a st).attemptsMade := by
  intro fuel
  induction fuel with
  | zero =>
    intro a st hmade hfa i hai hi _ _
    simp only [retryGo] at hi
    omega
  | succ n ih =>
    intro a st hmade hfa i hai hi hrem htrans
    rcases hra : results a with sa | ra
    · simp only [retryGo, hra] at hi ⊢
      by_cases h1 : isStopStatus sa = true
      · rw [if_pos h1] at hi ⊢
        dsimp only at hi ⊢
        have hia : i = a := by omega
        subst hia
        rcases htrans with ⟨s, hs, h500⟩ | ⟨r, hr⟩
        · rw [hra] at hs
          injection hs with he
          subst he
          exfalso
          simp only [isStopStatus, Bool.or_eq_true, Bool.and_eq_true,
            decide_eq_true_eq] at h1
          omega
        · rw [hra] at hr
          cases hr
      · rw [if_neg h1] at hi ⊢
        by_cases h2 : 500 ≤ sa ∧ a < maxRetries - 1
        · rw [if_pos h2] at hi ⊢
          rcases Nat.eq_or_lt_of_le hai with rfl | hlt'
          · have hn : 1 ≤ n := by
              simp only [maxRetries] at hfa hrem
              omega
            rcases n with _ | m
            · omega
            · have hge := retryGo_made_succ_ge results m (a + 1)
                { st with
                    htmlResponse := some sa
                    attemptsMade := st.attemptsMade + 1
                    backoffs := st.backoffs ++ [2 ^ a * 1000] }
              dsimp only at hge
              omega
          · exact ih (a + 1) _ (by dsimp only; omega) (by omega) i hlt' hi hrem htrans
        · rw [if_neg h2] at hi ⊢
          dsimp only at hi ⊢
          have hia : i = a := by omega
          subst hia
          rcases htrans with ⟨s, hs, h500⟩ | ⟨r, hr⟩
          · rw [hra] at hs
            injection hs with he
            subst he
            exact absurd ⟨h500, hrem⟩ h2
          · rw [hra] at hr
            cases hr
    · simp only [retryGo, hra] at hi ⊢
      by_cases h1 : a < maxRetries - 1
      · rw [if_pos h1] at hi ⊢
        rcases Nat.eq_or_lt_of_le hai with rfl | hlt'
        · have hn : 1 ≤ n := by
            simp only [maxRetries] at hfa h1
            omega
          rcases n with _ | m
          · omega
          · have hge := retryGo_made_succ_ge results m (a + 1)
              { st with
                  lastError := some ra
                  attemptsMade := st.attemptsMade + 1
                  backoffs := st.backoffs ++ [2 ^ a * 1000] }
            dsimp only at hge
            omega
        · exact ih (a + 1) _ (by dsimp only; omega) (by omega) i hlt' hi hrem htrans
      · rw [if_neg h1] at hi ⊢
        dsimp only at hi ⊢
        have hia : i = a := by omega
        subst hia
        exact absurd hrem h1

theorem fetchShim_all_netErr (results : Nat → FetchRes) (r0 r1 r2 : String)
    (h0 : results 0 = FetchRes.netErr r0) (h1 : results 1 = FetchRes.netErr r1)
    (h2 : results 2 = FetchRes.netErr r2) :
    fetchShim results =
      ShimOutcome.networkFailure ("Failed to fetch article: " ++ r2) := by
  simp [fetchShim, runRetry, retryGo, maxRetries, h0, h1, h2]

/-- C7: the fetch shim makes at most 3 attempts; an attempt whose
response is 2xx or 4xx ends the loop immediately; every non-final
attempt was either a 5xx response or a network failure and was
followed by a backoff of 2 to the power of the attempt index, in
seconds (stored in milliseconds); conversely, an attempt that yields a
5xx response or a network failure while attempts remain is always
followed by a further attempt; and when every attempt fails at the
network level the request becomes a 500 network-failure response whose
message carries the last failure's reason. -/
theorem c7_retry_policy (results : Nat → FetchRes) :
    (runRetry results).attemptsMade ≤ 3 ∧
    (∀ i s, i < (runRetry results).attemptsMade → results i = FetchRes.resp s →
      isStopStatus s = true → (runRetry results).attemptsMade = i + 1) ∧
    ((runRetry results).backoffs =
      (List.range ((runRetry results).attemptsMade - 1)).map (fun i => 2 ^ i * 1000)) ∧
    (∀ i, i + 1 < (runRetry results).attemptsMade →
      (∃ s, results i = FetchRes.resp s ∧ 500 ≤ s) ∨
        ∃ r, results i = FetchRes.netErr r) ∧
    (∀ i, i < (runRetry results).attemptsMade → i < maxRetries - 1 →
      ((∃ s, results i = FetchRes.resp s ∧ 500 ≤ s) ∨
        ∃ r, results i = FetchRes.netErr r) →
      i + 1 < (runRetry results).attemptsMade) ∧
    (∀ r0 r1 r2, results 0 = FetchRes.netErr r0 → results 1 = FetchRes.netErr r1 →
      results 2 = FetchRes.netErr r2 →
      fetchShim results =
        ShimOutcome.networkFailure ("Failed to fetch article: " ++ r2)) := by
  refine ⟨?_, ?_, ?_, ?_, ?_, ?_⟩
  · exact retryGo_made_le results maxRetries 0 ⟨none, none, [], 0⟩
  · intro i s hi hres hstop
    exact retryGo_stop_immediate results maxRetries 0 _ rfl i s (Nat.zero_le i) hi hres hstop
  · exact retryGo_backoffs results maxRetries 0 _ rfl (by simp [maxRetries]) rfl rfl
  · intro i hi
    exact retryGo_retried_transient results maxRetries 0 _ rfl i (Nat.zero_le i) hi
  · intro i hi hrem htrans
    exact retryGo_retries results maxRetries 0 _ rfl rfl i (Nat.zero_le i) hi hrem htrans
  · intro r0 r1 r2 h0 h1 h2
    exact fetchShim_all_netErr results r0 r1 r2 h0 h1 h2

/-- Witness for c7_retry_policy on a run where every attempt fails at
the network level: three attempts are made, the first network failure
is indeed retried, and the final response is the 500 carrying the last
reason. -/
theorem c7_retry_policy_witness :
    (runRetry (fun _ => FetchRes.netErr "boom")).attemptsMade ≤ 3 ∧
    0 + 1 < (runRetry (fun _ => FetchRes.netErr "boom")).attemptsMade ∧
    fetchShim (fun _ => FetchRes.netErr "boom") =
      ShimOutcome.networkFailure ("Failed to fetch article: " ++ "boom") :=
  ⟨(c7_retry_policy (fun _ => FetchRes.netErr "boom")).1,
   (c7_retry_policy (fun _ => FetchRes.netErr "boom")).2.2.2.2.1 0 (by decide)
     (by decide) (Or.inr ⟨"boom", rfl⟩),
   (c7_retry_policy (fun _ => FetchRes.netErr "boom")).2.2.2.2.2 "boom" "boom" "boom"
     rfl rfl rfl⟩

/-! ### String-heuristic lemmas for C8 -/

theorem isPrefixOf_self_append (xs ys : List Char) : xs.isPrefixOf (xs ++ ys) = true := by
  induction xs with
  | nil => simp [List.isPrefixOf]
  | cons c cs ih => simp [List.isPrefixOf, ih]

theorem isPrefixOf_take_of (xs : List Char) :
    ∀ (l : List Char) (m : Nat), xs.isPrefixOf l = true → xs.length ≤ m →
      xs.isPrefixOf (l.take m) = true := by
  induction xs with
  | nil =>
    intro l m _ _
    simp [List.isPrefixOf]
  | cons c cs ih =>
    intro l m hpre hm
    cases l with
    | nil => simp [List.isPrefixOf] at hpre
    | cons b bs =>
      cases m with
      | zero => simp at hm
      | succ m' =>
        simp only [List.take_succ_cons, List.isPrefixOf, Bool.and_eq_true] at hpre ⊢
        exact ⟨hpre.1, ih bs m' hpre.2 (by simpa using hm)⟩

theorem hasSubL_of_isPrefixOf (pat l : List Char) (h : pat.isPrefixOf l = true) :
    hasSubL pat l = true := by
  cases l with
  | nil =>
    cases pat with
    | nil => simp [hasSubL]
    | cons c cs => simp [List.isPrefixOf] at h
  | cons c cs => simp [hasSubL, h]

theorem getLastD_of_ne_nil {α : Type} (t : List α) (h : t ≠ []) (d₁ d₂ : α) :
    t.getLastD d₁ = t.getLastD d₂ := by
  cases t with
  | nil => exact absurd rfl h
  | cons x xs => rw [List.getLastD_cons, List.getLastD_cons]

theorem hasSubL_cons_false (pat : List Char) (c : Char) (l : List Char)
    (h : hasSubL pat (c :: l) = false) : hasSubL pat l = false := by
  simp only [hasSubL, Bool.or_eq_false_iff] at h
  exact h.2

theorem isPrefixOf_append_right (xs : List Char) :
    ∀ (l l' : List Char), xs.isPrefixOf l = true → xs.isPrefixOf (l ++ l') = true := by
  induction xs with
  | nil =>
    intro l l' _
    simp [List.isPrefixOf]
  | cons c cs ih =>
    intro l l' hpre
    cases l with
    | nil => simp [List.isPrefixOf] at hpre
    | cons b bs =>
      simp only [List.cons_append, List.isPrefixOf, Bool.and_eq_true] at hpre ⊢
      exact ⟨hpre.1, ih bs l' hpre.2⟩

theorem hasSubL_append_left (pat : List Char) :
    ∀ (l l' : List Char), hasSubL pat l = true → hasSubL pat (l ++ l') = true := by
  intro l
  induction l with
  | nil =>
    intro l' h
    simp only [hasSubL, List.isEmpty_iff] at h
    subst h
    cases l' with
    | nil => simp [hasSubL]
    | cons c cs => simp [hasSubL, List.isPrefixOf]
  | cons c cs ih =>
    intro l' h
    simp only [hasSubL, Bool.or_eq_true] at h ⊢
    rcases h with h | h
    · exact Or.inl (by simpa using isPrefixOf_append_right pat _ l' h)
    · exact Or.inr (ih l' h)

theorem hasSubL_mid (pat pre rest : List Char) :
    hasSubL pat (pre ++ (pat ++ rest)) = true := by
  induction pre with
  | nil =>
    simp only [List.nil_append]
    exact hasSubL_of_isPrefixOf _ _ (isPrefixOf_self_append pat rest)
  | cons c pre ih =>
    rw [show (c :: pre) ++ (pat ++ rest) = c :: (pre ++ (pat ++ rest)) from rfl]
    rw [show hasSubL pat (c :: (pre ++ (pat ++ rest))) =
      (pat.isPrefixOf (c :: (pre ++ (pat ++ rest))) ||
        hasSubL pat (pre ++ (pat ++ rest))) from rfl]
    rw [ih]
    simp

theorem patL_length : patL.length = 8 := rfl

theorem matchProfileL_here (name : List Char) (hname : name ≠ [])
    (hnl : name.contains '\n' = false) :
    matchProfileL (patL ++ name) = some name := by
  have hcond : patL.isPrefixOf ('p' :: (['r', 'o', 'f', 'i', 'l', 'e', '/'] ++ name)) =
      true := isPrefixOf_self_append patL name
  have hdrop : ('p' :: (['r', 'o', 'f', 'i', 'l', 'e', '/'] ++ name)).drop patL.length =
      name := List.drop_left patL name
  rw [show patL ++ name = 'p' :: (['r', 'o', 'f', 'i', 'l', 'e', '/'] ++ name) from rfl]
  simp only [matchProfileL]
  rw [if_pos hcond, hdrop, if_pos (And.intro hname hnl)]

theorem matchProfileL_eq (name : List Char) (hname : name ≠ [])
    (hnl : name.contains '\n' = false) :
    ∀ (pre : List Char), hasSubL patL ((pre ++ patL).dropLast) = false →
      matchProfileL (pre ++ (patL ++ name)) = some name := by
  intro pre
  induction pre with
  | nil =>
    intro _
    simpa using matchProfileL_here name hname hnl
  | cons c pre ih =>
    intro hno
    simp only [List.cons_append] at hno ⊢
    have hlen : (pre ++ patL).length = pre.length + 8 := by
      simp [patL_length]
    have hdropcons : (c :: (pre ++ patL)).dropLast = c :: (pre ++ patL).dropLast := by
      apply List.dropLast_cons_of_ne_nil
      intro hcontra
      have := congrArg List.length hcontra
      simp [hlen] at this
    rw [hdropcons] at hno
    have hfalse : patL.isPrefixOf (c :: (pre ++ (patL ++ name))) = false := by
      by_contra hcontra
      rw [Bool.not_eq_false] at hcontra
      have htake : (c :: (pre ++ (patL ++ name))).take (pre.length + 8) =
          c :: (pre ++ patL).dropLast := by
        rw [List.take_succ_cons]
        congr 1
        rw [show pre ++ (patL ++ name) = (pre ++ patL) ++ name by simp,
          List.take_append_eq_append_take, hlen,
          show pre.length + 7 - (pre.length + 8) = 0 by omega,
          List.take_zero, List.append_nil, List.dropLast_eq_take, hlen,
          show pre.length + 8 - 1 = pre.length + 7 by omega]
      have hp := isPrefixOf_take_of patL _ (pre.length + 8) hcontra
        (by rw [patL_length]; omega)
      rw [htake] at hp
      have hsub := hasSubL_of_isPrefixOf _ _ hp
      rw [hno] at hsub
      cases hsub
    simp only [matchProfileL]
    rw [if_neg (by simp [hfalse])]
    exact ih (hasSubL_cons_false _ _ _ hno)

theorem splitChar_no_sep (sep : Char) (l : List Char) (h : sep ∉ l) :
    splitChar sep l = [l] := by
  induction l with
  | nil => rfl
  | cons c cs ih =>
    have hc : ¬ c = sep := fun hcc => h (hcc ▸ List.mem_cons_self c cs)
    have hcs : sep ∉ cs := fun hmem => h (List.mem_cons_of_mem c hmem)
    simp only [splitChar, if_neg hc, ih hcs]

theorem splitChar_append_sep (sep : Char) (ys : List Char) :
    ∀ (xs : List Char), sep ∉ xs →
      splitChar sep (xs ++ sep :: ys) = xs :: splitChar sep ys := by
  intro xs
  induction xs with
  | nil =>
    intro _
    simp [splitChar]
  | cons c cs ih =>
    intro h
    have hc : ¬ c = sep := fun hcc => h (hcc ▸ List.mem_cons_self c cs)
    have hcs : sep ∉ cs := fun hmem => h (List.mem_cons_of_mem c hmem)
    simp only [List.cons_append, splitChar, if_neg hc]
    rw [show cs.append (sep :: ys) = cs ++ sep :: ys from rfl, ih hcs]

theorem intercalateL_cons_cons (sep x y : List Char) (ys : List (List Char)) :
    intercalateL sep (x :: y :: ys) = x ++ sep ++ intercalateL sep (y :: ys) := rfl

theorem splitChar_cons_ne_sep (sep c : Char) (h : ¬ c = sep) (X g : List Char)
    (gs : List (List Char)) (hX : splitChar sep X = g :: gs) :
    splitChar sep (c :: X) = (c :: g) :: gs := by
  simp only [splitChar, if_neg h, hX]

theorem splitChar_intercalate :
    ∀ (us : List (List Char)) (u : List Char), (∀ v ∈ u :: us, ',' ∉ v) →
      splitChar ',' (intercalateL (',' :: ' ' :: []) (u :: us)) =
        u :: us.map (fun v => ' ' :: v) := by
  intro us
  induction us with
  | nil =>
    intro u h
    simp only [intercalateL]
    rw [splitChar_no_sep ',' u (h u (List.mem_cons_self u []))]
    rfl
  | cons v vs ih =>
    intro u h
    have hu : ',' ∉ u := h u (List.mem_cons_self _ _)
    have hrest : ∀ w ∈ v :: vs, ',' ∉ w := fun w hw => h w (List.mem_cons_of_mem u hw)
    rw [intercalateL_cons_cons]
    rw [show u ++ (',' :: ' ' :: []) ++ intercalateL (',' :: ' ' :: []) (v :: vs) =
      u ++ (',' :: (' ' :: intercalateL (',' :: ' ' :: []) (v :: vs))) by simp]
    rw [splitChar_append_sep ',' _ u hu]
    rw [splitChar_cons_ne_sep ',' ' ' (by decide) _ v (vs.map (fun w => ' ' :: w))
      (ih v hrest)]
    rfl

theorem splitChar_length_two (sep : Char) :
    ∀ (l : List Char), sep ∈ l → 2 ≤ (splitChar sep l).length := by
  intro l
  induction l with
  | nil => simp
  | cons c cs ih =>
    intro hmem
    by_cases hc : c = sep
    · subst hc
      rw [show splitChar c (c :: cs) = [] :: splitChar c cs by simp [splitChar]]
      have h1 : 1 ≤ (splitChar c cs).length :=
        List.length_pos.mpr (splitChar_ne_nil c cs)
      simp only [List.length_cons]
      omega
    · have hmem' : sep ∈ cs := by
        rcases List.mem_cons.mp hmem with h | h
        · exact absurd h.symm hc
        · exact h
      rcases hsp : splitChar sep cs with _ | ⟨g, gs⟩
      · exact absurd hsp (splitChar_ne_nil sep cs)
      · rw [splitChar_cons_ne_sep sep c hc _ g gs hsp]
        have := ih hmem'
        rw [hsp] at this
        simpa using this

theorem splitChar_getLast (sep : Char) (ys : List Char) (hys : sep ∉ ys) :
    ∀ (xs : List Char), (splitChar sep (xs ++ sep :: ys)).getLastD [] = ys := by
  intro xs
  induction xs with
  | nil =>
    rw [List.nil_append]
    rw [show splitChar sep (sep :: ys) = [] :: splitChar sep ys by
      simp [splitChar]]
    rw [splitChar_no_sep sep ys hys]
    rfl
  | cons c cs ih =>
    by_cases hc : c = sep
    · subst hc
      rw [show (c :: cs) ++ c :: ys = c :: (cs ++ c :: ys) from rfl]
      rw [show splitChar c (c :: (cs ++ c :: ys)) =
        [] :: splitChar c (cs ++ c :: ys) by simp [splitChar]]
      rw [List.getLastD_cons]
      rw [getLastD_of_ne_nil _ (splitChar_ne_nil c (cs ++ c :: ys)) [] []] at ih
      rw [getLastD_of_ne_nil _ (splitChar_ne_nil c (cs ++ c :: ys)) [] []]
      exact ih
    · rw [show (c :: cs) ++ sep :: ys = c :: (cs ++ sep :: ys) from rfl]
      rcases hsp : splitChar sep (cs ++ sep :: ys) with _ | ⟨g, gs⟩
      · exact absurd hsp (splitChar_ne_nil sep (cs ++ sep :: ys))
      · rw [splitChar_cons_ne_sep sep c hc _ g gs hsp]
        have hgs : gs ≠ [] := by
          have hmem : sep ∈ cs ++ sep :: ys := by simp
          have hlen := splitChar_length_two sep (cs ++ sep :: ys) hmem
          rw [hsp] at hlen
          simp only [List.length_cons] at hlen
          intro hcontra
          subst hcontra
          simp at hlen
        rw [hsp] at ih
        rw [List.getLastD_cons] at ih ⊢
        rw [getLastD_of_ne_nil gs hgs (c :: g) g]
        exact ih

theorem dropWhile_all_false (p : Char → Bool) (u : List Char)
    (h : ∀ c ∈ u, p c = false) : u.dropWhile p = u := by
  cases u with
  | nil => rfl
  | cons c cs => simp [List.dropWhile_cons, h c (List.mem_cons_self c cs)]

theorem trim_rev_self (u : List Char) (h : ∀ c ∈ u, isJsWS c = false) :
    (u.reverse.dropWhile isJsWS).reverse = u := by
  rw [dropWhile_all_false _ _ (fun c hc => h c (List.mem_reverse.mp hc))]
  exact List.reverse_reverse u

theorem trimL_eq_self (u : List Char) (h : ∀ c ∈ u, isJsWS c = false) :
    trimL u = u := by
  unfold trimL
  rw [dropWhile_all_false _ _ h, trim_rev_self u h]

theorem trimL_cons_space (u : List Char) (h : ∀ c ∈ u, isJsWS c = false) :
    trimL (' ' :: u) = u := by
  unfold trimL
  rw [List.dropWhile_cons, if_pos (by decide), dropWhile_all_false _ _ h,
    trim_rev_self u h]

theorem titleCaseGo_length (u : List Char) :
    ∀ (b : Bool), (titleCaseGo b u).length = u.length := by
  induction u with
  | nil =>
    intro b
    rfl
  | cons c cs ih =>
    intro b
    simp [titleCaseGo, ih]

theorem titleCase_dash_ne_nil (name : List Char) (h : name ≠ []) :
    titleCaseL (dashToSpaceL name) ≠ [] := by
  intro hcontra
  have hlen := congrArg List.length hcontra
  simp only [titleCaseL, titleCaseGo_length, dashToSpaceL, List.length_map,
    List.length_nil] at hlen
  exact h (List.length_eq_zero.mp hlen)

/-- The per-URL shape hypothesis of C8: the URL is some prefix, then
the (first) occurrence of "profile/", then a non-empty final path
segment free of slashes and newlines. -/
def ProfileUrl (u : List Char) : Prop :=
  ∃ pre name, u = pre ++ (patL ++ name) ∧ name ≠ [] ∧
    name.contains '\n' = false ∧ '/' ∉ name ∧
    hasSubL patL ((pre ++ patL).dropLast) = false

theorem lastSegmentL_eq (pre name : List Char) (hsl : '/' ∉ name) :
    lastSegmentL (pre ++ (patL ++ name)) = name := by
  rw [show pre ++ (patL ++ name) =
    (pre ++ ['p', 'r', 'o', 'f', 'i', 'l', 'e']) ++ '/' :: name by simp [patL]]
  unfold lastSegmentL
  exact splitChar_getLast '/' name hsl _

theorem profileNameL_spec (u : List Char) (hsh : ProfileUrl u)
    (hws : ∀ c ∈ u, isJsWS c = false) :
    profileNameL u = specProfileName u ∧ profileNameL u ≠ [] ∧
      profileNameL (' ' :: u) = specProfileName u := by
  obtain ⟨pre, name, rfl, hname, hnl, hsl, hno⟩ := hsh
  have hmatch : matchProfileL (pre ++ (patL ++ name)) = some name :=
    matchProfileL_eq name hname hnl pre hno
  have h1 : profileNameL (pre ++ (patL ++ name)) = titleCaseL (dashToSpaceL name) := by
    unfold profileNameL
    rw [trimL_eq_self _ hws, hmatch]
  have h2 : profileNameL (' ' :: (pre ++ (patL ++ name))) =
      titleCaseL (dashToSpaceL name) := by
    unfold profileNameL
    rw [trimL_cons_space _ hws, hmatch]
  have hspec : specProfileName (pre ++ (patL ++ name)) =
      titleCaseL (dashToSpaceL name) := by
    unfold specProfileName
    rw [lastSegmentL_eq pre name hsl]
  refine ⟨h1.trans hspec.symm, ?_, h2.trans hspec.symm⟩
  rw [h1]
  exact titleCase_dash_ne_nil name hname

theorem intercalateL_ne_nil (sep x : List Char) (xs : List (List Char)) (hx : x ≠ []) :
    intercalateL sep (x :: xs) ≠ [] := by
  cases xs with
  | nil => simpa [intercalateL] using hx
  | cons y ys =>
    rw [intercalateL_cons_cons]
    simp [hx]

/-- C8: when the author is still empty after the JSON-LD scan and the
meta/selector chain, and article:author is a comma-plus-space separated
list of profile URLs, the heuristic resolves exactly to the
specification's description - the last path segment of each URL,
dashes replaced by spaces, words title-cased, joined with ", " - and
that value becomes the resolved author. -/
theorem c8_profile_author (urls : List (List Char)) (u0 : List Char)
    (us : List (List Char)) (hcons : urls = u0 :: us)
    (hshape : ∀ u ∈ urls, ProfileUrl u)
    (hclean : ∀ u ∈ urls, ',' ∉ u ∧ ∀ c ∈ u, isJsWS c = false) :
    articleAuthorHeuristicL (intercalateL (',' :: ' ' :: []) urls) =
      specAuthorFromUrls urls ∧
    resolveAuthor "" "" (String.mk (intercalateL (',' :: ' ' :: []) urls)) =
      String.mk (specAuthorFromUrls urls) := by
  subst hcons
  have hguard : hasSubL patL (intercalateL (',' :: ' ' :: []) (u0 :: us)) = true := by
    obtain ⟨pre0, name0, hu0, _, _, _, _⟩ := hshape u0 (List.mem_cons_self _ _)
    cases us with
    | nil =>
      simp only [intercalateL, hu0]
      exact hasSubL_mid patL pre0 name0
    | cons v vs =>
      rw [intercalateL_cons_cons, hu0]
      rw [show (pre0 ++ (patL ++ name0)) ++ (',' :: ' ' :: []) ++
        intercalateL (',' :: ' ' :: []) (v :: vs) = (pre0 ++ (patL ++ name0)) ++
        ((',' :: ' ' :: []) ++ intercalateL (',' :: ' ' :: []) (v :: vs)) by simp]
      exact hasSubL_append_left patL _ _ (hasSubL_mid patL pre0 name0)
  have hsplit := splitChar_intercalate us u0 (fun v hv => (hclean v hv).1)
  have hmain : articleAuthorHeuristicL (intercalateL (',' :: ' ' :: []) (u0 :: us)) =
      specAuthorFromUrls (u0 :: us) := by
    unfold articleAuthorHeuristicL
    rw [if_pos hguard, hsplit]
    have hpoint0 := profileNameL_spec u0 (hshape u0 (List.mem_cons_self _ _))
      (hclean u0 (List.mem_cons_self _ _)).2
    have hmap : (u0 :: us.map (fun v => ' ' :: v)).map profileNameL =
        (u0 :: us).map specProfileName := by
      simp only [List.map_cons, List.map_map]
      rw [hpoint0.1]
      congr 1
      apply List.map_congr_left
      intro v hv
      have hp := profileNameL_spec v (hshape v (List.mem_cons_of_mem u0 hv))
        (hclean v (List.mem_cons_of_mem u0 hv)).2
      exact hp.2.2
    rw [hmap]
    have hall : ∀ l ∈ (u0 :: us).map specProfileName, l ≠ [] := by
      intro l hl
      rcases List.mem_map.mp hl with ⟨v, hv, rfl⟩
      have hp := profileNameL_spec v (hshape v hv) (hclean v hv).2
      rw [← hp.1]
      exact hp.2.1
    rw [List.filter_eq_self.mpr (fun a ha => by simpa using hall a ha)]
    rfl
  refine ⟨hmain, ?_⟩
  have hne0 : specProfileName u0 ≠ [] := by
    have hp := profileNameL_spec u0 (hshape u0 (List.mem_cons_self _ _))
      (hclean u0 (List.mem_cons_self _ _)).2
    rw [← hp.1]
    exact hp.2.1
  have hne' : specAuthorFromUrls (u0 :: us) ≠ [] := by
    unfold specAuthorFromUrls
    simp only [List.map_cons]
    exact intercalateL_ne_nil _ _ _ hne0
  have hheur : articleAuthorHeuristic (String.mk (intercalateL (',' :: ' ' :: [])
      (u0 :: us))) = String.mk (specAuthorFromUrls (u0 :: us)) := by
    unfold articleAuthorHeuristic
    rw [show (String.mk (intercalateL (',' :: ' ' :: []) (u0 :: us))).data =
      intercalateL (',' :: ' ' :: []) (u0 :: us) from rfl, hmain]
  unfold resolveAuthor
  rw [if_pos rfl, if_pos rfl, hheur]
  rw [if_neg (by simp [String.ext_iff, hne'])]

/-- Witness for c8_profile_author at the concrete scenario of the
specification. -/
theorem c8_profile_author_witness :
    articleAuthorHeuristic
        "https://site.com/profile/john-smith, https://site.com/profile/jane-doe" =
      "John Smith, Jane Doe" ∧
    resolveAuthor "" ""
        "https://site.com/profile/john-smith, https://site.com/profile/jane-doe" =
      "John Smith, Jane Doe" := by
  have h := c8_profile_author
    ["https://site.com/profile/john-smith".data, "https://site.com/profile/jane-doe".data]
    "https://site.com/profile/john-smith".data
    ["https://site.com/profile/jane-doe".data] rfl
    (by
      intro u hu
      rcases List.mem_cons.mp hu with rfl | hu'
      · exact ⟨"https://site.com/".data, "john-smith".data, by decide, by decide,
          by decide, by decide, by decide⟩
      · rcases List.mem_cons.mp hu' with rfl | hu''
        · exact ⟨"https://site.com/".data, "jane-doe".data, by decide, by decide,
            by decide, by decide, by decide⟩
        · simp at hu'')
    (by
      intro u hu
      rcases List.mem_cons.mp hu with rfl | hu'
      · exact ⟨by decide, by decide⟩
      · rcases List.mem_cons.mp hu' with rfl | hu''
        · exact ⟨by decide, by decide⟩
        · simp at hu'')
  have hdata : ("https://site.com/profile/john-smith, https://site.com/profile/jane-doe"
      : String).data = intercalateL (',' :: ' ' :: [])
      ["https://site.com/profile/john-smith".data,
       "https://site.com/profile/jane-doe".data] := by decide
  constructor
  · unfold articleAuthorHeuristic
    rw [hdata, h.1]
    decide
  · rw [show ("https://site.com/profile/john-smith, https://site.com/profile/jane-doe"
      : String) = String.mk (intercalateL (',' :: ' ' :: [])
      ["https://site.com/profile/john-smith".data,
       "https://site.com/profile/jane-doe".data]) from by
        rw [String.ext_iff]
        exact hdata]
    rw [h.2]
    decide

end NewsSnippet
